import Mathlib

/-!
Verification of the `flatpak-extract` tool
(`src/local/flatpak-extract/flatpak-extract.py`) against its
natural-language specification.

The script is process orchestration: it shells out to `ostree`, locates the
commit object the delta-apply step produced, checks it out, lists the result
and cleans up a scratch repository.  We embed the script shallowly:

* `run_command` models the subprocess wrapper of the same name.  The outcome
  of the child process is an explicit `CmdOutcome`; the wrapper either
  returns a boolean success flag or terminates the whole program
  (`sys.exit(1)` on `FileNotFoundError`).
* `find_commit_hash` models the commit-object discovery.  The scratch
  repository is a listing of file-system entries (`FSEntry`), each a path of
  components relative to the repository root together with a directory flag.
  `rglobCommits` models `objects_dir.rglob('*.commit')` (a fixed pattern, so
  matching is a suffix test on the final component); the listing order of
  the entries models the file-system-dependent glob order.
* `mainRun` models the command pipeline of the script's `main` function,
  including the precondition checks on the temporary and output directories,
  the `try`/`except SystemExit`/`finally` control flow and the cleanup in
  the `finally` block.  External nondeterminism (which directories exist,
  how each child process exits, whether `shutil.rmtree` succeeds) is an
  explicit `Env`; the observable behaviour (commands executed in order,
  exit code, directories removed) is a `RunTrace`.
-/

/-! ### Python `Path.stem`

`Path.stem` drops the last suffix of the final component.  CPython computes
`i = name.rfind('.')` and strips `name[i:]` only when `0 < i < len(name)-1`,
so a leading dot (hidden file) or a trailing dot is not a suffix. -/

/-- Indices of all occurrences of `'.'` in a character list. -/
def dotIdxs (cs : List Char) : List Nat :=
  (List.range cs.length).filter fun i => cs.getD i ' ' == '.'

/-- Python `Path.stem`: the final component without its last suffix. -/
def pathStem (name : String) : String :=
  let cs := name.data
  match (dotIdxs cs).getLast? with
  | some i => if 0 < i && i < cs.length - 1 then ⟨cs.take i⟩ else name
  | none => name

/-! ### The command runner (`run_command`) -/

/-- How an attempt to run a child process turns out: the process ran and
exited with `code` (stdout/stderr captured), the executable was not found
(`FileNotFoundError`), or another exception was raised. -/
inductive CmdOutcome where
  | exited (code : Nat) (stdoutStr stderrStr : String)
  | notFound
  | otherError
  deriving DecidableEq

/-- What `run_command` does from the caller's point of view: it returns a
boolean success flag, or it terminates the whole program with an exit code
(the `sys.exit(1)` executed on `FileNotFoundError`). -/
inductive RunResult where
  | returned (success : Bool)
  | exitProgram (code : Nat)
  deriving DecidableEq

/-- `run_command` (flatpak-extract.py lines 11-39): `subprocess.run` with
`check=True` raises `CalledProcessError` on a non-zero exit, which is caught
and mapped to `False`; a zero exit returns `True`; `FileNotFoundError`
calls `sys.exit(1)`; any other exception is caught and mapped to `False`. -/
def run_command (o : CmdOutcome) : RunResult :=
  match o with
  | .exited code _ _ => .returned (code == 0)
  | .notFound => .exitProgram 1
  | .otherError => .returned false

/-! ### The scratch repository and `find_commit_hash` -/

/-- A file-system entry of the scratch repository: a path (components
relative to the repository root) and whether it is a directory. -/
structure FSEntry where
  path : List String
  isDir : Bool
  deriving DecidableEq

/-- `(repo_dir / "objects").is_dir()`: the listing has a directory entry at
exactly the path `["objects"]`. -/
def isDirIn (repo : List FSEntry) (p : List String) : Bool :=
  repo.any fun e => e.isDir && e.path == p

/-- Whether a path is matched by `objects_dir.rglob('*.commit')`: it lies
strictly below `objects/` and its final component ends in `.commit`. -/
def matchesCommitGlob (p : List String) : Bool :=
  p.head? == some "objects" && decide (2 ≤ p.length)
    && ".commit".data.isSuffixOf (p.getLastD "").data

/-- `list(objects_dir.rglob('*.commit'))`, in the (file-system-dependent)
order in which the repository listing presents its entries. -/
def rglobCommits (repo : List FSEntry) : List FSEntry :=
  repo.filter fun e => matchesCommitGlob e.path

/-- `commit_file_path.parent.name`: the name of the immediate parent
directory, i.e. the second-to-last component of the path. -/
def parentName (p : List String) : String :=
  p.dropLast.getLastD ""

/-- Result of `find_commit_hash`: the derived hash (or `None`) and whether
the multiple-matches warning was printed. -/
structure FindResult where
  hash : Option String
  warned : Bool
  deriving DecidableEq

/-- `find_commit_hash` (flatpak-extract.py lines 41-66): fail when
`objects/` is not a directory or no `*.commit` object exists; otherwise
take the first glob match (warning when there is more than one) and return
`parent_dir_name + commit_filename_stem`. -/
def find_commit_hash (repo : List FSEntry) : FindResult :=
  if isDirIn repo ["objects"] = false then ⟨none, false⟩
  else
    match rglobCommits repo with
    | [] => ⟨none, false⟩
    | e :: rest =>
        let commitFilenameStem := pathStem (e.path.getLastD "")
        let parentDirName := parentName e.path
        ⟨some (parentDirName ++ commitFilenameStem), !rest.isEmpty⟩

/-! ### The `main` pipeline -/

/-- The exact argument vectors handed to the command runner. -/
def cmdInit (tmpdir : String) : List String :=
  ["ostree", "init", "--repo=" ++ tmpdir, "--mode=bare-user"]

/-- `ostree static-delta apply-offline --repo=<tmpdir> <input>`. -/
def cmdApply (tmpdir input : String) : List String :=
  ["ostree", "static-delta", "apply-offline", "--repo=" ++ tmpdir, input]

/-- `ostree checkout --repo=<tmpdir> -U <hash> <outdir>`. -/
def cmdCheckout (tmpdir hash outdir : String) : List String :=
  ["ostree", "checkout", "--repo=" ++ tmpdir, "-U", hash, outdir]

/-- The directories `main` may remove with `shutil.rmtree`. -/
inductive PathId where
  | tmpdirId
  | outdirId
  deriving DecidableEq

/-- Observable behaviour of one run of `main`: the external commands
executed in order, the process exit code, the directories successfully
removed by `shutil.rmtree`, whether the cleanup-failure warning was
printed, and whether the temporary directory still exists when the
process exits. -/
structure RunTrace where
  executed : List (List String)
  exitCode : Nat
  removed : List PathId
  cleanupWarned : Bool
  tmpdirFinal : Bool
  deriving DecidableEq

/-- The external world of one run: whether the input file exists, whether
the temporary/output directory paths already exist at start, how each of
the three `ostree` invocations turns out, the scratch repository contents
seen by `find_commit_hash`, whether the temporary directory exists when the
`finally` block runs (for runs that executed at least one command), and
whether `shutil.rmtree` succeeds. -/
structure Env where
  inputIsFile : Bool
  tmpdirExists0 : Bool
  outdirExists0 : Bool
  initOutcome : CmdOutcome
  applyOutcome : CmdOutcome
  checkoutOutcome : CmdOutcome
  fs : List FSEntry
  tmpdirExistsAtCleanup : Bool
  rmtreeOk : Bool
  deriving DecidableEq

/-- The `finally` block (flatpak-extract.py lines 266-275): if the
temporary directory exists it is removed; a removal failure prints a
warning and, only when the main process had succeeded (`success` still
`True`), escalates to `sys.exit(1)`.  `pending` is the exit code the run
was about to terminate with (0 for normal completion). -/
def finalize (executed : List (List String)) (pending : Nat)
    (success existsNow rmOk : Bool) : RunTrace :=
  if existsNow then
    if rmOk then ⟨executed, pending, [.tmpdirId], false, false⟩
    else ⟨executed, if success then 1 else pending, [], true, true⟩
  else ⟨executed, pending, [], false, false⟩

/-- `main` (flatpak-extract.py lines 176-275), from the point where the
input path has been resolved: the missing-input check (`sys.exit(1)`
outside the `try`, so no cleanup), the two pre-existence checks inside the
`try` (their `sys.exit(1)` is caught by `except SystemExit` and re-raised,
so the `finally` cleanup still runs), then the init / apply / hash /
checkout pipeline, aborting via `SystemExit` on the first failing step. -/
def mainRun (tmpdir outdir input : String) (env : Env) : RunTrace :=
  if env.inputIsFile = false then ⟨[], 1, [], false, env.tmpdirExists0⟩
  else if env.tmpdirExists0 then
    -- `tmpdir.exists()` was just observed `True`, so the `finally` block
    -- sees it `True` as well and removes the pre-existing directory.
    finalize [] 1 true true env.rmtreeOk
  else if env.outdirExists0 then
    -- `tmpdir` was just observed absent, so the `finally` block is a no-op.
    finalize [] 1 true false env.rmtreeOk
  else
    match run_command env.initOutcome with
    | .exitProgram c =>
        finalize [cmdInit tmpdir] c true env.tmpdirExistsAtCleanup env.rmtreeOk
    | .returned false =>
        finalize [cmdInit tmpdir] 1 false env.tmpdirExistsAtCleanup env.rmtreeOk
    | .returned true =>
      match run_command env.applyOutcome with
      | .exitProgram c =>
          finalize [cmdInit tmpdir, cmdApply tmpdir input] c true
            env.tmpdirExistsAtCleanup env.rmtreeOk
      | .returned false =>
          finalize [cmdInit tmpdir, cmdApply tmpdir input] 1 false
            env.tmpdirExistsAtCleanup env.rmtreeOk
      | .returned true =>
        match (find_commit_hash env.fs).hash with
        | none =>
            finalize [cmdInit tmpdir, cmdApply tmpdir input] 1 false
              env.tmpdirExistsAtCleanup env.rmtreeOk
        | some h =>
          match run_command env.checkoutOutcome with
          | .exitProgram c =>
              finalize [cmdInit tmpdir, cmdApply tmpdir input,
                cmdCheckout tmpdir h outdir] c true
                env.tmpdirExistsAtCleanup env.rmtreeOk
          | .returned false =>
              finalize [cmdInit tmpdir, cmdApply tmpdir input,
                cmdCheckout tmpdir h outdir] 1 false
                env.tmpdirExistsAtCleanup env.rmtreeOk
          | .returned true =>
              finalize [cmdInit tmpdir, cmdApply tmpdir input,
                cmdCheckout tmpdir h outdir] 0 true
                env.tmpdirExistsAtCleanup env.rmtreeOk

/-- `run_command` reported success for the given outcome. -/
def retTrue : RunResult → Bool
  | .returned true => true
  | _ => false

/-- The whole extraction pipeline succeeded: all three `ostree` commands
reported success and a commit hash was found. -/
def pipelineOk (env : Env) : Bool :=
  retTrue (run_command env.initOutcome) && retTrue (run_command env.applyOutcome)
    && (find_commit_hash env.fs).hash.isSome
    && retTrue (run_command env.checkoutOutcome)

/-! ### Argument handling (`--outdir` / `--tmpdir` defaults) -/

/-- What `argparse` hands to `main` for an option whose declared default is
the string `"exists"`: the supplied value, or `"exists"` when omitted. -/
def parseDirArg (supplied : Option String) : String :=
  supplied.getD "exists"

/-- flatpak-extract.py lines 209-213: the output directory is the computed
default `<stem>-flatpak` exactly when the argument equals the sentinel
string `"exists"`; `resolve` models `Path.resolve()`. -/
def computeOutdir (resolve : String → String) (argOutdir stem : String) : String :=
  if argOutdir = "exists" then resolve (stem ++ "-flatpak") else resolve argOutdir

/-- flatpak-extract.py lines 215-219: the temporary directory is the
computed default `flatpak-extract-<uuid4>` exactly when the argument equals
the sentinel string `"exists"`. -/
def computeTmpdir (resolve : String → String) (argTmpdir uuid : String) : String :=
  if argTmpdir = "exists" then resolve ("flatpak-extract-" ++ uuid) else resolve argTmpdir

/-! ### Bundle Type Detector (spec-modelled)

The repository copy under `src/` contains only the OSTree-only variant of
the script; the type-detecting variant the specification also describes is
not present.  The detector below is therefore modelled from the
specification's words alone. -/

/-- gzip magic bytes `1F 8B`. -/
def gzipMagic : List Nat := [0x1F, 0x8B]

/-- xz magic bytes `FD 37 7A 58 5A`. -/
def xzMagic : List Nat := [0xFD, 0x37, 0x7A, 0x58, 0x5A]

/-- bzip2 magic bytes `42 5A 68`. -/
def bzip2Magic : List Nat := [0x42, 0x5A, 0x68]

/-- zstd magic bytes `28 B5 2F FD`. -/
def zstdMagic : List Nat := [0x28, 0xB5, 0x2F, 0xFD]

/-- The literal bytes `OSTREE`. -/
def ostreeMarker : List Nat := [0x4F, 0x53, 0x54, 0x52, 0x45, 0x45]

/-- The header contains the given byte sequence as a contiguous block. -/
def containsBytes (pat header : List Nat) : Bool :=
  decide (pat <:+: header)

/-- The header starts with one of the four known compression magics. -/
def startsWithCompressionMagic (header : List Nat) : Bool :=
  gzipMagic.isPrefixOf header || xzMagic.isPrefixOf header
    || bzip2Magic.isPrefixOf header || zstdMagic.isPrefixOf header

/-- Modelled from the spec: the Bundle Type Detector of the type-detecting
script variant, which is absent from `src/`.  Spec section 4.3, cases in the
order the spec lists them: a header (the first up-to-16 bytes) containing
the literal bytes `OSTREE` is "ostree"; a header starting with the
gzip/xz/bzip2/zstd magic is "tar"; otherwise a `.flatpak` filename
extension gives "ostree" and anything else "tar". -/
def detectBundleType (header : List Nat) (filename : String) : String :=
  if containsBytes ostreeMarker header then "ostree"
  else if startsWithCompressionMagic header then "tar"
  else if ".flatpak".data.isSuffixOf filename.data then "ostree"
  else "tar"

/-! ### Helper lemmas about the runner and the cleanup block -/

/-- `run_command` has exactly three observable results. -/
theorem run_command_shape (o : CmdOutcome) :
    run_command o = .returned true ∨ run_command o = .returned false
      ∨ run_command o = .exitProgram 1 := by
  cases o with
  | exited c out err =>
    cases h : c == 0
    · exact Or.inr (Or.inl (by simp [run_command, h]))
    · exact Or.inl (by simp [run_command, h])
  | notFound => exact Or.inr (Or.inr rfl)
  | otherError => exact Or.inr (Or.inl rfl)

/-- `retTrue` detects exactly the successful return. -/
theorem retTrue_iff (x : RunResult) : retTrue x = true ↔ x = .returned true := by
  cases x with
  | returned b => cases b <;> simp [retTrue]
  | exitProgram c => simp [retTrue]

/-- Closed form of the cleanup block. -/
theorem finalize_eq (ex : List (List String)) (p : Nat) (s en rm : Bool) :
    finalize ex p s en rm =
      ⟨ex, if en && !rm && s then 1 else p,
        if en && rm then [.tmpdirId] else [], en && !rm, en && !rm⟩ := by
  cases en <;> cases rm <;> cases s <;> simp [finalize]

/-! ### Claims about `run_command` and the CLI defaults -/

/-- Claim C7: `run_command` returns a boolean success flag that is true iff
the child process exits with code zero; a non-zero child exit makes it
return `false` (the `CalledProcessError` is caught) rather than letting an
exception escape to the caller. -/
theorem c7_run_command (code : Nat) (out err : String) :
    (run_command (CmdOutcome.exited code out err) = RunResult.returned true ↔ code = 0)
    ∧ (code ≠ 0 →
        run_command (CmdOutcome.exited code out err) = RunResult.returned false) := by
  refine ⟨?_, ?_⟩ <;> simp [run_command]

/-- Witness for C7 at the concrete exit code 2. -/
theorem c7_witness :
    (2 : Nat) ≠ 0 ∧ run_command (CmdOutcome.exited 2 "" "") = RunResult.returned false :=
  ⟨by decide, (c7_run_command 2 "" "").2 (by decide)⟩

/-- Claim C10: passing the literal string "exists" as `--outdir` or
`--tmpdir` is indistinguishable from omitting the option: the sentinel
makes the program use the computed defaults `<stem>-flatpak` and
`flatpak-extract-<uuid>` instead of a directory literally named "exists". -/
theorem c10_sentinel (resolve : String → String) (stem uuid : String) :
    computeOutdir resolve (parseDirArg (some "exists")) stem
        = computeOutdir resolve (parseDirArg none) stem
    ∧ computeOutdir resolve (parseDirArg (some "exists")) stem
        = resolve (stem ++ "-flatpak")
    ∧ computeTmpdir resolve (parseDirArg (some "exists")) uuid
        = computeTmpdir resolve (parseDirArg none) uuid
    ∧ computeTmpdir resolve (parseDirArg (some "exists")) uuid
        = resolve ("flatpak-extract-" ++ uuid) :=
  ⟨rfl, rfl, rfl, rfl⟩

/-! ### Claim C1: hash derivation from the sole commit object -/

/-- Claim C1: when the glob over the scratch repository finds exactly one
commit object `objects/<parent>/<name>` (with a two-character parent
directory), `find_commit_hash` returns the concatenation of the parent
directory name and the file stem of the object file. -/
theorem c1_find_commit_hash (repo : List FSEntry) (e : FSEntry)
    (parent fname : String)
    (hdir : isDirIn repo ["objects"] = true)
    (hglob : rglobCommits repo = [e])
    (hpath : e.path = ["objects", parent, fname])
    (_hparent : parent.length = 2) :
    (find_commit_hash repo).hash = some (parent ++ pathStem fname) := by
  unfold find_commit_hash
  simp [hdir, hglob, hpath, parentName]

/-- The example scratch repository of C1: a sole `objects/ab/cdef.commit`. -/
def c1Repo : List FSEntry :=
  [⟨["objects"], true⟩, ⟨["objects", "ab"], true⟩,
   ⟨["objects", "ab", "cdef.commit"], false⟩]

/-- Witness for C1: the sole `objects/ab/cdef.commit` yields hash "abcdef". -/
theorem c1_witness :
    isDirIn c1Repo ["objects"] = true
    ∧ rglobCommits c1Repo = [⟨["objects", "ab", "cdef.commit"], false⟩]
    ∧ (find_commit_hash c1Repo).hash = some "abcdef" := by
  refine ⟨by decide, by decide, ?_⟩
  have h := c1_find_commit_hash c1Repo ⟨["objects", "ab", "cdef.commit"], false⟩
    "ab" "cdef.commit" (by decide) (by decide) rfl (by decide)
  exact h.trans (by decide)

/-! ### Claim C8 (corrected): magic-byte classification -/

/-- A header that starts with the gzip magic and also contains `OSTREE`. -/
def c8Header : List Nat := [0x1F, 0x8B, 0x4F, 0x53, 0x54, 0x52, 0x45, 0x45]

/-- Counterexample to C8 as stated: this header starts with the gzip magic,
yet the detector classifies it "ostree", not "tar", because the spec checks
the `OSTREE` marker first. -/
theorem c8_counterexample :
    gzipMagic.isPrefixOf c8Header = true
    ∧ detectBundleType c8Header "app.bin" = "ostree"
    ∧ detectBundleType c8Header "app.bin" ≠ "tar" := by decide

/-- Claim C8 (amended): a header that starts with one of the compression
magics and does not contain the literal bytes `OSTREE` is classified "tar"
regardless of the file's extension; a header containing `OSTREE` is
classified "ostree". -/
theorem c8_amended (header : List Nat) (filename : String) :
    (startsWithCompressionMagic header = true →
      containsBytes ostreeMarker header = false →
      detectBundleType header filename = "tar")
    ∧ (containsBytes ostreeMarker header = true →
      detectBundleType header filename = "ostree") := by
  constructor
  · intro h1 h2
    simp [detectBundleType, h1, h2]
  · intro h
    simp [detectBundleType, h]

/-- Witness for the amended C8, on a gzip header with a `.flatpak` name and
on the gzip-plus-OSTREE header. -/
theorem c8_amended_witness :
    (startsWithCompressionMagic [0x1F, 0x8B, 0, 0] = true
      ∧ containsBytes ostreeMarker [0x1F, 0x8B, 0, 0] = false
      ∧ detectBundleType [0x1F, 0x8B, 0, 0] "app.flatpak" = "tar")
    ∧ (containsBytes ostreeMarker c8Header = true
      ∧ detectBundleType c8Header "x.tar.gz" = "ostree") :=
  ⟨⟨by decide, by decide, (c8_amended [0x1F, 0x8B, 0, 0] "app.flatpak").1 (by decide) (by decide)⟩,
   ⟨by decide, (c8_amended c8Header "x.tar.gz").2 (by decide)⟩⟩

/-! ### Claim C2: pipeline order and abort on first failure -/

/-- Claim C2: past the precondition checks, the pipeline runs `ostree init`,
`ostree static-delta apply-offline`, commit-hash discovery and `ostree
checkout` in this order, and the first failing step aborts the run with a
non-zero exit without executing any later step. -/
theorem c2_pipeline_order (t o b : String) (env : Env)
    (hin : env.inputIsFile = true) (ht : env.tmpdirExists0 = false)
    (ho : env.outdirExists0 = false) :
    (retTrue (run_command env.initOutcome) = false →
        (mainRun t o b env).executed = [cmdInit t]
          ∧ (mainRun t o b env).exitCode ≠ 0)
    ∧ (retTrue (run_command env.initOutcome) = true →
        retTrue (run_command env.applyOutcome) = false →
        (mainRun t o b env).executed = [cmdInit t, cmdApply t b]
          ∧ (mainRun t o b env).exitCode ≠ 0)
    ∧ (retTrue (run_command env.initOutcome) = true →
        retTrue (run_command env.applyOutcome) = true →
        (find_commit_hash env.fs).hash = none →
        (mainRun t o b env).executed = [cmdInit t, cmdApply t b]
          ∧ (mainRun t o b env).exitCode ≠ 0)
    ∧ (∀ h : String, retTrue (run_command env.initOutcome) = true →
        retTrue (run_command env.applyOutcome) = true →
        (find_commit_hash env.fs).hash = some h →
        (mainRun t o b env).executed = [cmdInit t, cmdApply t b, cmdCheckout t h o]
          ∧ (retTrue (run_command env.checkoutOutcome) = false →
              (mainRun t o b env).exitCode ≠ 0)) := by
  refine ⟨?_, ?_, ?_, ?_⟩
  · intro h1
    rcases run_command_shape env.initOutcome with hc | hc | hc
    · rw [hc] at h1; simp [retTrue] at h1
    · simp [mainRun, hin, ht, ho, hc, finalize_eq]
    · simp [mainRun, hin, ht, ho, hc, finalize_eq]
  · intro h1 h2
    rw [retTrue_iff] at h1
    rcases run_command_shape env.applyOutcome with hc | hc | hc
    · rw [hc] at h2; simp [retTrue] at h2
    · simp [mainRun, hin, ht, ho, h1, hc, finalize_eq]
    · simp [mainRun, hin, ht, ho, h1, hc, finalize_eq]
  · intro h1 h2 hn
    rw [retTrue_iff] at h1 h2
    simp [mainRun, hin, ht, ho, h1, h2, hn, finalize_eq]
  · intro h h1 h2 hs
    rw [retTrue_iff] at h1 h2
    rcases run_command_shape env.checkoutOutcome with hc | hc | hc
    · simp [mainRun, hin, ht, ho, h1, h2, hs, hc, finalize_eq, retTrue]
    · simp [mainRun, hin, ht, ho, h1, h2, hs, hc, finalize_eq, retTrue]
    · simp [mainRun, hin, ht, ho, h1, h2, hs, hc, finalize_eq, retTrue]

/-- A run in which init and apply succeed, the repository holds one commit
object, and checkout fails. -/
def c2Env : Env :=
  ⟨true, false, false, .exited 0 "" "", .exited 0 "" "", .exited 1 "" "",
    c1Repo, true, true⟩

/-- Witness for C2: with one commit object and a failing checkout, exactly
the three commands run in order and the exit code is non-zero. -/
theorem c2_witness :
    (mainRun "T" "O" "B" c2Env).executed
        = [cmdInit "T", cmdApply "T" "B", cmdCheckout "T" "abcdef" "O"]
    ∧ (mainRun "T" "O" "B" c2Env).exitCode ≠ 0 := by
  have h := (c2_pipeline_order "T" "O" "B" c2Env rfl rfl rfl).2.2.2 "abcdef"
    (by decide) (by decide) (by decide)
  exact ⟨h.1, h.2 (by decide)⟩

/-! ### Claim C3 (corrected): pre-existing directories -/

/-- A run whose temporary-directory path already exists at start. -/
def c3Env : Env :=
  ⟨true, true, false, .exited 0 "" "", .exited 0 "" "", .exited 0 "" "",
    [], true, true⟩

/-- Counterexample to C3 as stated: when the scratch directory pre-exists,
the program does exit non-zero before running any external command, but the
`finally` block then removes the pre-existing scratch directory, so its
contents are not left unmodified. -/
theorem c3_counterexample :
    (mainRun "T" "O" "B" c3Env).executed = []
    ∧ (mainRun "T" "O" "B" c3Env).exitCode = 1
    ∧ (mainRun "T" "O" "B" c3Env).removed = [PathId.tmpdirId]
    ∧ (mainRun "T" "O" "B" c3Env).removed ≠ [] := by decide

/-- Claim C3 (amended): if the output directory or the scratch directory
already exists at start, the program exits non-zero without running any
external command; a pre-existing output directory is never removed, and
when only the output directory pre-exists nothing is removed at all, but a
pre-existing scratch directory is deleted by the cleanup block (when its
removal succeeds). -/
theorem c3_amended (t o b : String) (env : Env)
    (hin : env.inputIsFile = true)
    (h : env.tmpdirExists0 = true ∨ env.outdirExists0 = true) :
    (mainRun t o b env).exitCode ≠ 0
    ∧ (mainRun t o b env).executed = []
    ∧ PathId.outdirId ∉ (mainRun t o b env).removed
    ∧ (env.tmpdirExists0 = false → (mainRun t o b env).removed = [])
    ∧ (env.tmpdirExists0 = true → env.rmtreeOk = true →
        (mainRun t o b env).removed = [PathId.tmpdirId]) := by
  cases ht : env.tmpdirExists0
  · rcases h with h | h
    · rw [ht] at h; cases h
    · simp [mainRun, hin, ht, h, finalize_eq]
  · simp only [mainRun, hin, ht, finalize_eq, if_true, if_false]
    cases hr : env.rmtreeOk <;> simp [mainRun, hin, ht, hr, finalize_eq]

/-- Witness for the amended C3 at the concrete pre-existing-scratch run. -/
theorem c3_amended_witness :
    c3Env.inputIsFile = true ∧ c3Env.tmpdirExists0 = true
    ∧ (mainRun "T" "O" "B" c3Env).exitCode ≠ 0
    ∧ (mainRun "T" "O" "B" c3Env).executed = []
    ∧ (mainRun "T" "O" "B" c3Env).removed = [PathId.tmpdirId] := by
  have h := c3_amended "T" "O" "B" c3Env rfl (Or.inl rfl)
  exact ⟨rfl, rfl, h.1, h.2.1, h.2.2.2.2 rfl rfl⟩

/-! ### Claim C4: guaranteed cleanup of the scratch directory -/

/-- Cleanup facts for a run that aborted with pending exit code 1. -/
theorem c4_leaf_fail (ex : List (List String)) (s en rm : Bool) :
    PathId.outdirId ∉ (finalize ex 1 s en rm).removed
    ∧ (rm = true → (finalize ex 1 s en rm).tmpdirFinal = false)
    ∧ ((finalize ex 1 s en rm).tmpdirFinal = true →
        (finalize ex 1 s en rm).cleanupWarned = true)
    ∧ (en = true → rm = true → (finalize ex 1 s en rm).removed = [PathId.tmpdirId])
    ∧ (finalize ex 1 s en rm).exitCode ≠ 0 := by
  cases en <;> cases rm <;> cases s <;> simp [finalize]

/-- Cleanup facts for a run whose pipeline completed successfully. -/
theorem c4_leaf_ok (ex : List (List String)) (en rm : Bool) :
    PathId.outdirId ∉ (finalize ex 0 true en rm).removed
    ∧ (rm = true → (finalize ex 0 true en rm).tmpdirFinal = false)
    ∧ ((finalize ex 0 true en rm).tmpdirFinal = true →
        (finalize ex 0 true en rm).cleanupWarned = true)
    ∧ (en = true → rm = true → (finalize ex 0 true en rm).removed = [PathId.tmpdirId])
    ∧ ((finalize ex 0 true en rm).exitCode = 0 ↔ (en = true → rm = true)) := by
  cases en <;> cases rm <;> simp [finalize]

/-- The C4 conclusions for any branch of `mainRun` that aborted (pending
exit code 1) while the pipeline did not succeed. -/
theorem c4_of_fail (env : Env) (r : RunTrace) (ex : List (List String)) (s : Bool)
    (hr : r = finalize ex 1 s env.tmpdirExistsAtCleanup env.rmtreeOk)
    (hp : pipelineOk env = false) :
    PathId.outdirId ∉ r.removed
    ∧ (env.rmtreeOk = true → r.tmpdirFinal = false)
    ∧ (r.tmpdirFinal = true → r.cleanupWarned = true)
    ∧ (env.tmpdirExistsAtCleanup = true → env.rmtreeOk = true →
        r.removed = [PathId.tmpdirId])
    ∧ (r.exitCode = 0 ↔
        (pipelineOk env = true
          ∧ (env.tmpdirExistsAtCleanup = true → env.rmtreeOk = true))) := by
  subst hr
  have h := c4_leaf_fail ex s env.tmpdirExistsAtCleanup env.rmtreeOk
  refine ⟨h.1, h.2.1, h.2.2.1, h.2.2.2.1, ?_⟩
  constructor
  · intro h0
    exact absurd h0 h.2.2.2.2
  · rintro ⟨hpt, _⟩
    rw [hp] at hpt
    cases hpt

/-- Claim C4: on every run past the precondition checks the scratch
directory is gone by process exit (when its removal is not itself the
failing operation), a removal failure is reported as a warning, the
escalation of a cleanup failure to exit code 1 happens exactly when the
extraction pipeline itself had succeeded, and the output directory is
never removed. -/
theorem c4_cleanup (t o b : String) (env : Env)
    (hin : env.inputIsFile = true) (ht : env.tmpdirExists0 = false)
    (ho : env.outdirExists0 = false) :
    PathId.outdirId ∉ (mainRun t o b env).removed
    ∧ (env.rmtreeOk = true → (mainRun t o b env).tmpdirFinal = false)
    ∧ ((mainRun t o b env).tmpdirFinal = true →
        (mainRun t o b env).cleanupWarned = true)
    ∧ (env.tmpdirExistsAtCleanup = true → env.rmtreeOk = true →
        (mainRun t o b env).removed = [PathId.tmpdirId])
    ∧ ((mainRun t o b env).exitCode = 0 ↔
        (pipelineOk env = true
          ∧ (env.tmpdirExistsAtCleanup = true → env.rmtreeOk = true))) := by
  rcases run_command_shape env.initOutcome with h1 | h1 | h1
  · rcases run_command_shape env.applyOutcome with h2 | h2 | h2
    · cases hh : (find_commit_hash env.fs).hash with
      | none =>
        exact c4_of_fail env _ [cmdInit t, cmdApply t b] false
          (by simp [mainRun, hin, ht, ho, h1, h2, hh])
          (by simp [pipelineOk, h1, h2, hh, retTrue])
      | some hsh =>
        rcases run_command_shape env.checkoutOutcome with h3 | h3 | h3
        · have hm : mainRun t o b env
              = finalize [cmdInit t, cmdApply t b, cmdCheckout t hsh o] 0 true
                  env.tmpdirExistsAtCleanup env.rmtreeOk := by
            simp [mainRun, hin, ht, ho, h1, h2, hh, h3]
          rw [hm]
          have h := c4_leaf_ok [cmdInit t, cmdApply t b, cmdCheckout t hsh o]
            env.tmpdirExistsAtCleanup env.rmtreeOk
          have hp : pipelineOk env = true := by
            simp [pipelineOk, h1, h2, hh, h3, retTrue]
          refine ⟨h.1, h.2.1, h.2.2.1, h.2.2.2.1, ?_⟩
          rw [h.2.2.2.2, hp]
          simp
        · exact c4_of_fail env _ [cmdInit t, cmdApply t b, cmdCheckout t hsh o] false
            (by simp [mainRun, hin, ht, ho, h1, h2, hh, h3])
            (by simp [pipelineOk, h1, h2, hh, h3, retTrue])
        · exact c4_of_fail env _ [cmdInit t, cmdApply t b, cmdCheckout t hsh o] true
            (by simp [mainRun, hin, ht, ho, h1, h2, hh, h3])
            (by simp [pipelineOk, h1, h2, hh, h3, retTrue])
    · exact c4_of_fail env _ [cmdInit t, cmdApply t b] false
        (by simp [mainRun, hin, ht, ho, h1, h2])
        (by simp [pipelineOk, h1, h2, retTrue])
    · exact c4_of_fail env _ [cmdInit t, cmdApply t b] true
        (by simp [mainRun, hin, ht, ho, h1, h2])
        (by simp [pipelineOk, h1, h2, retTrue])
  · exact c4_of_fail env _ [cmdInit t] false
      (by simp [mainRun, hin, ht, ho, h1])
      (by simp [pipelineOk, h1, retTrue])
  · exact c4_of_fail env _ [cmdInit t] true
      (by simp [mainRun, hin, ht, ho, h1])
      (by simp [pipelineOk, h1, retTrue])

/-- A fully successful run whose scratch directory exists at cleanup time
and is removed successfully. -/
def c4Env : Env :=
  ⟨true, false, false, .exited 0 "" "", .exited 0 "" "", .exited 0 "" "",
    c1Repo, true, true⟩

/-- Witness for C4: in the successful run the scratch directory is removed,
the output directory is not, and the exit code is 0. -/
theorem c4_witness :
    PathId.outdirId ∉ (mainRun "T" "O" "B" c4Env).removed
    ∧ (mainRun "T" "O" "B" c4Env).tmpdirFinal = false
    ∧ (mainRun "T" "O" "B" c4Env).removed = [PathId.tmpdirId]
    ∧ (mainRun "T" "O" "B" c4Env).exitCode = 0 := by
  have h := c4_cleanup "T" "O" "B" c4Env rfl rfl rfl
  exact ⟨h.1, h.2.1 rfl, h.2.2.2.1 rfl rfl, h.2.2.2.2.mpr ⟨by decide, fun _ => rfl⟩⟩

/-! ### Claim C5: no commit object means failure without checkout -/

/-- Claim C5: when the glob over the scratch repository matches nothing
(including when `objects/` is absent), `find_commit_hash` returns `None`
and the run exits non-zero without ever invoking an `ostree checkout`
command. -/
theorem c5_no_commit (t o b : String) (env : Env)
    (hglob : rglobCommits env.fs = []) :
    (find_commit_hash env.fs).hash = none
    ∧ (mainRun t o b env).exitCode ≠ 0
    ∧ ∀ c ∈ (mainRun t o b env).executed, c.get? 1 ≠ some "checkout" := by
  have hnone : (find_commit_hash env.fs).hash = none := by
    unfold find_commit_hash
    cases hd : isDirIn env.fs ["objects"]
    · simp
    · simp [hglob]
  have key : ((mainRun t o b env).executed = []
        ∨ (mainRun t o b env).executed = [cmdInit t]
        ∨ (mainRun t o b env).executed = [cmdInit t, cmdApply t b])
      ∧ (mainRun t o b env).exitCode ≠ 0 := by
    cases hi : env.inputIsFile
    · simp [mainRun, hi]
    · cases htm : env.tmpdirExists0
      · cases hout : env.outdirExists0
        · rcases run_command_shape env.initOutcome with h1 | h1 | h1
          · rcases run_command_shape env.applyOutcome with h2 | h2 | h2
            · simp [mainRun, hi, htm, hout, h1, h2, hnone, finalize_eq]
            · simp [mainRun, hi, htm, hout, h1, h2, finalize_eq]
            · simp [mainRun, hi, htm, hout, h1, h2, finalize_eq]
          · simp [mainRun, hi, htm, hout, h1, finalize_eq]
          · simp [mainRun, hi, htm, hout, h1, finalize_eq]
        · simp [mainRun, hi, htm, hout, finalize_eq]
      · simp [mainRun, hi, htm, finalize_eq]
  obtain ⟨hex, hexit⟩ := key
  refine ⟨hnone, hexit, ?_⟩
  intro c hc
  rcases hex with he | he | he <;> rw [he] at hc <;> simp [cmdInit, cmdApply] at hc
  · subst hc
    simp [cmdInit]
  · rcases hc with hc | hc <;> subst hc <;> simp [cmdInit, cmdApply]

/-- A run over an empty scratch repository. -/
def c5Env : Env :=
  ⟨true, false, false, .exited 0 "" "", .exited 0 "" "", .exited 0 "" "",
    [], true, true⟩

/-- Witness for C5 on the empty repository. -/
theorem c5_witness :
    rglobCommits ([] : List FSEntry) = []
    ∧ (find_commit_hash ([] : List FSEntry)).hash = none
    ∧ (mainRun "T" "O" "B" c5Env).exitCode ≠ 0 := by
  have h := c5_no_commit "T" "O" "B" c5Env rfl
  exact ⟨rfl, h.1, h.2.1⟩

/-! ### Claim C6: multiple commit objects -/

/-- Claim C6: with more than one `*.commit` match, `find_commit_hash` does
not fail: it sets the warning, derives the hash from the first file in the
glob result, and (when init and apply succeed) extraction proceeds to the
checkout of exactly that hash. -/
theorem c6_multiple_commits (t o b : String) (env : Env)
    (e1 e2 : FSEntry) (rest : List FSEntry)
    (hin : env.inputIsFile = true) (ht : env.tmpdirExists0 = false)
    (ho : env.outdirExists0 = false)
    (hdir : isDirIn env.fs ["objects"] = true)
    (hglob : rglobCommits env.fs = e1 :: e2 :: rest)
    (h1 : retTrue (run_command env.initOutcome) = true)
    (h2 : retTrue (run_command env.applyOutcome) = true) :
    (find_commit_hash env.fs).warned = true
    ∧ (find_commit_hash env.fs).hash
        = some (parentName e1.path ++ pathStem (e1.path.getLastD ""))
    ∧ cmdCheckout t (parentName e1.path ++ pathStem (e1.path.getLastD "")) o
        ∈ (mainRun t o b env).executed := by
  have hfind : find_commit_hash env.fs
      = ⟨some (parentName e1.path ++ pathStem (e1.path.getLastD "")), true⟩ := by
    unfold find_commit_hash
    simp [hdir, hglob]
  rw [retTrue_iff] at h1 h2
  have hhash : (find_commit_hash env.fs).hash
      = some (parentName e1.path ++ pathStem (e1.path.getLastD "")) := by
    rw [hfind]
  refine ⟨by rw [hfind], hhash, ?_⟩
  rcases run_command_shape env.checkoutOutcome with h3 | h3 | h3 <;>
    simp [mainRun, hin, ht, ho, h1, h2, hhash, h3, finalize_eq]

/-- A scratch repository with two commit objects; the glob order of the
listing presents `objects/ab/cdef.commit` first. -/
def c6Repo : List FSEntry :=
  [⟨["objects"], true⟩, ⟨["objects", "ab"], true⟩,
   ⟨["objects", "ab", "cdef.commit"], false⟩,
   ⟨["objects", "cd", "0123.commit"], false⟩]

/-- A run over the two-commit repository with all commands succeeding. -/
def c6Env : Env :=
  ⟨true, false, false, .exited 0 "" "", .exited 0 "" "", .exited 0 "" "",
    c6Repo, true, true⟩

/-- Witness for C6: the warning is set, the hash comes from the first glob
match, and the checkout of that hash is executed. -/
theorem c6_witness :
    (find_commit_hash c6Repo).warned = true
    ∧ (find_commit_hash c6Repo).hash = some "abcdef"
    ∧ cmdCheckout "T" "abcdef" "O" ∈ (mainRun "T" "O" "B" c6Env).executed := by
  have h := c6_multiple_commits "T" "O" "B" c6Env
    ⟨["objects", "ab", "cdef.commit"], false⟩
    ⟨["objects", "cd", "0123.commit"], false⟩ []
    rfl rfl rfl (by decide) (by decide) (by decide) (by decide)
  obtain ⟨hw, hh, hm⟩ := h
  refine ⟨hw, hh.trans (congrArg some (by decide)), ?_⟩
  have he2 : cmdCheckout "T"
      (parentName (⟨["objects", "ab", "cdef.commit"], false⟩ : FSEntry).path
        ++ pathStem ((⟨["objects", "ab", "cdef.commit"], false⟩ : FSEntry).path.getLastD ""))
      "O" = cmdCheckout "T" "abcdef" "O" := by decide
  exact he2 ▸ hm

/-! ### Claim C9: the directory lister (`list_files`)

The file tree below `startpath` is modelled as a rose tree; a node's
absolute path is the list of its components.  `list_files` mirrors the
source's worklist loop (pop the front, print, push the name-sorted children
back on the front), `sortTrees` mirrors `sorted(current_path.iterdir(),
key=lambda p: p.name)` as a stable comparison sort on names, and `render`
mirrors the path-string computation (`./`-prefixed paths relative to the
current working directory when `startpath.parent == cwd`, absolute paths
otherwise). -/

/-- A file-system tree: a plain file or a directory with children. -/
inductive FSTree where
  | file (name : String)
  | dir (name : String) (children : List FSTree)

/-- The entry's own name (`p.name`). -/
def FSTree.name : FSTree → String
  | .file n => n
  | .dir n _ => n

mutual
/-- Number of nodes of a tree (termination measure). -/
def FSTree.size : FSTree → Nat
  | .file _ => 1
  | .dir _ cs => 1 + sizeListFS cs
/-- Total number of nodes of a forest. -/
def sizeListFS : List FSTree → Nat
  | [] => 0
  | t :: ts => FSTree.size t + sizeListFS ts
end

theorem sizeListFS_append (a b : List FSTree) :
    sizeListFS (a ++ b) = sizeListFS a + sizeListFS b := by
  induction a with
  | nil => simp [sizeListFS]
  | cons t ts ih => simp [sizeListFS, ih, Nat.add_assoc]

theorem sizeListFS_eq_sum (l : List FSTree) :
    sizeListFS l = (l.map FSTree.size).sum := by
  induction l with
  | nil => simp [sizeListFS]
  | cons t ts ih => simp [sizeListFS, ih]

theorem mem_sizeListFS_le (c : FSTree) (l : List FSTree) (h : c ∈ l) :
    c.size ≤ sizeListFS l := by
  induction l with
  | nil => cases h
  | cons t ts ih =>
    rcases List.mem_cons.mp h with rfl | h2
    · exact Nat.le_add_right _ _
    · exact le_trans (ih h2) (Nat.le_add_left _ _)

theorem size_lt_dir (c : FSTree) (n : String) (cs : List FSTree) (h : c ∈ cs) :
    c.size < FSTree.size (.dir n cs) := by
  have := mem_sizeListFS_le c cs h
  simp only [FSTree.size]
  omega

/-- Lexicographic less-or-equal on character lists, as Python compares
strings (by code points).  Written on `List Char` so that it evaluates in
the kernel. -/
def charListLe : List Char → List Char → Bool
  | [], _ => true
  | _ :: _, [] => false
  | a :: as, b :: bs =>
      if a < b then true
      else if b < a then false
      else charListLe as bs

/-- The sort key comparison `x.name <= y.name`. -/
def nameLe (x y : FSTree) : Bool :=
  charListLe x.name.data y.name.data

/-- `charListLe` decides the lexicographic order on character lists. -/
theorem charListLe_iff (a b : List Char) :
    charListLe a b = true ↔ ¬ List.lt b a := by
  induction a generalizing b with
  | nil =>
    cases b with
    | nil =>
      simp only [charListLe, true_iff]
      intro h
      cases h
    | cons y ys =>
      simp only [charListLe, true_iff]
      intro h
      cases h
  | cons x xs ih =>
    cases b with
    | nil =>
      refine iff_of_false (by simp [charListLe]) ?_
      intro hn
      exact hn (List.lt.nil x xs)
    | cons y ys =>
      by_cases h1 : x < y
      · have hn : ¬ List.lt (y :: ys) (x :: xs) := by
          intro h
          cases h with
          | head _ _ h2 => exact absurd h1 (lt_asymm h2)
          | tail _ h3 _ => exact h3 h1
        simp [charListLe, h1, hn]
      · by_cases h2 : y < x
        · have hlt : List.lt (y :: ys) (x :: xs) := List.lt.head ys xs h2
          simp [charListLe, h1, h2, hlt]
        · have hiff : List.lt (y :: ys) (x :: xs) ↔ List.lt ys xs := by
            constructor
            · intro h
              cases h with
              | head _ _ hh => exact absurd hh h2
              | tail _ _ hh => exact hh
            · intro hh
              exact List.lt.tail h2 h1 hh
          rw [charListLe, if_neg h1, if_neg h2, ih ys, hiff]

/-- `nameLe` decides the order used by the sort key `p.name`. -/
theorem nameLe_iff (x y : FSTree) : nameLe x y = true ↔ x.name ≤ y.name := by
  rw [nameLe, charListLe_iff]
  rw [String.le_iff_toList_le, ← not_lt]
  apply not_congr
  rw [List.lt_iff_lex_lt]
  exact Iff.rfl

/-- Insert a tree into a name-sorted forest (the comparison sort backing
`sorted(..., key=lambda p: p.name)`). -/
def insertTree (x : FSTree) : List FSTree → List FSTree
  | [] => [x]
  | y :: ys => if nameLe x y then x :: y :: ys else y :: insertTree x ys

/-- `sorted(current_path.iterdir(), key=lambda p: p.name)`. -/
def sortTrees : List FSTree → List FSTree
  | [] => []
  | x :: xs => insertTree x (sortTrees xs)

theorem insertTree_perm (x : FSTree) (l : List FSTree) :
    (insertTree x l).Perm (x :: l) := by
  induction l with
  | nil => simp [insertTree]
  | cons y ys ih =>
    cases h : nameLe x y
    · simp only [insertTree, h, Bool.false_eq_true, if_false]
      exact (ih.cons y).trans (List.Perm.swap x y ys)
    · simp [insertTree, h]

theorem sortTrees_perm (l : List FSTree) : (sortTrees l).Perm l := by
  induction l with
  | nil => exact List.Perm.refl _
  | cons x xs ih => exact (insertTree_perm x (sortTrees xs)).trans (ih.cons x)

theorem mem_insertTree {z x : FSTree} {l : List FSTree} :
    z ∈ insertTree x l ↔ z = x ∨ z ∈ l := by
  rw [(insertTree_perm x l).mem_iff]
  simp

theorem mem_sortTrees {z : FSTree} {l : List FSTree} :
    z ∈ sortTrees l ↔ z ∈ l :=
  (sortTrees_perm l).mem_iff

theorem pairwise_insertTree (x : FSTree) (l : List FSTree)
    (h : l.Pairwise fun a b => a.name ≤ b.name) :
    (insertTree x l).Pairwise fun a b => a.name ≤ b.name := by
  induction l with
  | nil => simp [insertTree]
  | cons y ys ih =>
    rcases List.pairwise_cons.mp h with ⟨hy, hys⟩
    cases hb : nameLe x y
    · have hgt : y.name ≤ x.name := by
        refine le_of_not_le ?_
        rw [← nameLe_iff]
        simp [hb]
      simp only [insertTree, hb, Bool.false_eq_true, if_false]
      refine List.Pairwise.cons ?_ (ih hys)
      intro z hz
      rcases mem_insertTree.mp hz with rfl | hz2
      · exact hgt
      · exact hy z hz2
    · have hle : x.name ≤ y.name := (nameLe_iff x y).mp hb
      simp only [insertTree, hb, if_true]
      refine List.Pairwise.cons ?_ h
      intro z hz
      rcases List.mem_cons.mp hz with rfl | hz2
      · exact hle
      · exact le_trans hle (hy z hz2)

theorem sortTrees_pairwise (l : List FSTree) :
    (sortTrees l).Pairwise fun a b => a.name ≤ b.name := by
  induction l with
  | nil => simp [sortTrees]
  | cons x xs ih => exact pairwise_insertTree x (sortTrees xs) ih

theorem sortTrees_sorted_names (l : List FSTree) :
    ((sortTrees l).map FSTree.name).Sorted (· ≤ ·) := by
  rw [List.Sorted, List.pairwise_map]
  exact sortTrees_pairwise l

theorem sizeListFS_sortTrees (l : List FSTree) :
    sizeListFS (sortTrees l) = sizeListFS l := by
  rw [sizeListFS_eq_sum, sizeListFS_eq_sum]
  exact ((sortTrees_perm l).map FSTree.size).sum_eq

theorem map_snd_pairing (p : List String) (l : List FSTree) :
    List.map (Prod.snd ∘ fun c => ((p ++ [c.name], c) : List String × FSTree)) l = l := by
  induction l with
  | nil => rfl
  | cons x xs ih => simpa using ih

/-- POSIX joining of path components with `/`. -/
def joinPath : List String → String
  | [] => ""
  | [s] => s
  | s :: rest => s ++ "/" ++ joinPath rest

/-- `str(path)` for a resolved absolute path. -/
def absRender (p : List String) : String :=
  "/" ++ joinPath p

/-- The path string printed for `current_path` (flatpak-extract.py lines
114-132): in relative mode, a path below the current working directory is
printed as `./<relative>` (the working directory itself as `.`), anything
else as its absolute string. -/
def render (useRel : Bool) (cwd p : List String) : String :=
  if useRel then
    if cwd.isPrefixOf p then
      let rel := p.drop cwd.length
      if rel = [] then "." else "./" ++ joinPath rel
    else absRender p
  else absRender p

/-- The worklist loop of `list_files` (flatpak-extract.py lines 108-171):
pop the front of the queue, print its path string, and for a directory
push the name-sorted children back onto the front of the queue. -/
def listLoop (useRel : Bool) (cwd : List String) :
    List (List String × FSTree) → List String
  | [] => []
  | (p, .file _) :: rest => render useRel cwd p :: listLoop useRel cwd rest
  | (p, .dir _ cs) :: rest =>
      render useRel cwd p ::
        listLoop useRel cwd (((sortTrees cs).map fun c => (p ++ [c.name], c)) ++ rest)
termination_by q => sizeListFS (q.map Prod.snd)
decreasing_by
  · simp only [List.map_cons, sizeListFS, FSTree.size]
    omega
  · simp only [List.map_cons, List.map_append, List.map_map, sizeListFS, FSTree.size]
    rw [map_snd_pairing, sizeListFS_append, sizeListFS_sortTrees]
    omega

/-- `list_files` (flatpak-extract.py lines 69-171) on an existing, resolved
start path: `startParent` is `startpath.parent`, `t` the tree rooted at
`startpath`; `use_relative = (startpath.parent == cwd)`. -/
def list_files (cwd startParent : List String) (t : FSTree) : List String :=
  listLoop (decide (startParent = cwd)) cwd [(startParent ++ [t.name], t)]

/-- Specification-side traversal: the preorder listing of the visited
absolute paths, children in name-sorted order. -/
def visitPaths (p : List String) (t : FSTree) : List (List String) :=
  match t with
  | .file _ => [p]
  | .dir _ cs =>
      p :: ((sortTrees cs).attach.flatMap fun c => visitPaths (p ++ [c.1.name]) c.1)
termination_by t.size
decreasing_by
  exact size_lt_dir c.1 _ _ (mem_sortTrees.mp c.2)

/-- Well-formedness of a tree: sibling names are distinct at every level. -/
def wfTree : FSTree → Bool
  | .file _ => true
  | .dir _ cs =>
      decide ((cs.map FSTree.name).Nodup) && (cs.attach.all fun c => wfTree c.1)
termination_by t => t.size
decreasing_by
  exact size_lt_dir c.1 _ _ c.2

/-- A usable path component: nonempty and without a separator. -/
def validName (s : String) : Bool :=
  decide (s.data ≠ []) && decide ('/' ∉ s.data)

/-- Every name in the tree is a usable path component. -/
def validTree : FSTree → Bool
  | .file n => validName n
  | .dir n cs => validName n && (cs.attach.all fun c => validTree c.1)
termination_by t => t.size
decreasing_by
  exact size_lt_dir c.1 _ _ c.2

theorem attach_flatMap_eq {α β : Type} (l : List α) (f : α → List β) :
    (l.attach.flatMap fun c => f c.1) = l.flatMap f := by
  conv_rhs => rw [← List.attach_map_subtype_val l]
  rw [List.flatMap_map]

theorem visitPaths_file (p : List String) (n : String) :
    visitPaths p (.file n) = [p] := by
  simp [visitPaths]

theorem visitPaths_dir (p : List String) (n : String) (cs : List FSTree) :
    visitPaths p (.dir n cs)
      = p :: ((sortTrees cs).flatMap fun c => visitPaths (p ++ [c.name]) c) := by
  rw [visitPaths]
  exact congrArg _
    (attach_flatMap_eq (sortTrees cs) fun c => visitPaths (p ++ [c.name]) c)

/-- The worklist loop prints, for each queue entry in order, exactly the
rendered preorder traversal of that entry. -/
theorem listLoop_eq (useRel : Bool) (cwd : List String)
    (q : List (List String × FSTree)) :
    listLoop useRel cwd q
      = q.flatMap fun pt => (visitPaths pt.1 pt.2).map (render useRel cwd) := by
  induction q using listLoop.induct useRel cwd with
  | case1 => simp [listLoop]
  | case2 p n rest ih =>
    rw [listLoop, ih]
    simp [visitPaths_file]
  | case3 p n cs rest ih =>
    rw [listLoop, ih]
    simp [visitPaths_dir, List.flatMap_append, List.flatMap_map, List.map_flatMap]

/-- `list_files` prints exactly the rendered preorder traversal. -/
theorem list_files_eq (cwd startParent : List String) (t : FSTree) :
    list_files cwd startParent t
      = (visitPaths (startParent ++ [t.name]) t).map
          (render (decide (startParent = cwd)) cwd) := by
  rw [list_files, listLoop_eq]
  simp

theorem wfTree_file (n : String) : wfTree (.file n) = true := by
  simp [wfTree]

theorem wfTree_dir_iff (n : String) (cs : List FSTree) :
    wfTree (.dir n cs) = true
      ↔ (cs.map FSTree.name).Nodup ∧ ∀ c ∈ cs, wfTree c = true := by
  rw [wfTree]
  simp [List.all_eq_true, Subtype.forall]

theorem validTree_name (t : FSTree) (h : validTree t = true) :
    validName t.name = true := by
  cases t with
  | file n => rw [validTree] at h; exact h
  | dir n cs =>
    rw [validTree] at h
    simp only [Bool.and_eq_true] at h
    exact h.1

theorem validTree_dir_iff (n : String) (cs : List FSTree) :
    validTree (.dir n cs) = true
      ↔ validName n = true ∧ ∀ c ∈ cs, validTree c = true := by
  rw [validTree]
  simp [List.all_eq_true, Subtype.forall]

/-- Every visited path extends the path of the traversal root. -/
theorem visitPaths_extends (p : List String) (t : FSTree) :
    ∀ q ∈ visitPaths p t, p <+: q := by
  induction p, t using visitPaths.induct with
  | case1 p n =>
    intro q hq
    rw [visitPaths_file] at hq
    simp at hq
    subst hq
    exact List.prefix_refl _
  | case2 p n cs ih =>
    intro q hq
    rw [visitPaths_dir] at hq
    rcases List.mem_cons.mp hq with rfl | hq2
    · exact List.prefix_refl q
    · obtain ⟨c, hc, hqc⟩ := List.mem_flatMap.mp hq2
      have := ih ⟨c, hc⟩ q hqc
      exact List.IsPrefix.trans (List.prefix_append p [c.name]) this

/-- A path visited below the child named `a` carries `a` at the index just
past the parent path. -/
theorem visitPaths_getElem (p : List String) (a : String) (t : FSTree) :
    ∀ q ∈ visitPaths (p ++ [a]) t, q[p.length]? = some a := by
  intro q hq
  obtain ⟨s, hs⟩ := visitPaths_extends (p ++ [a]) t q hq
  rw [← hs, List.append_assoc]
  rw [List.getElem?_append_right (le_refl p.length)]
  simp

/-- With distinct sibling names, no path is visited twice. -/
theorem visitPaths_nodup (p : List String) (t : FSTree) (h : wfTree t = true) :
    (visitPaths p t).Nodup := by
  induction p, t using visitPaths.induct with
  | case1 p n =>
    rw [visitPaths_file]
    simp
  | case2 p n cs ih =>
    rw [visitPaths_dir]
    obtain ⟨hnames, hchild⟩ := (wfTree_dir_iff n cs).mp h
    rw [List.nodup_cons]
    constructor
    · intro hmem
      obtain ⟨c, hc, hq⟩ := List.mem_flatMap.mp hmem
      have hlen := (visitPaths_extends (p ++ [c.name]) c p hq).length_le
      simp at hlen
    · rw [List.nodup_flatMap]
      constructor
      · intro c hc
        exact ih ⟨c, hc⟩ (hchild c (mem_sortTrees.mp hc))
      · have hnames2 : (sortTrees cs).Pairwise fun a b => a.name ≠ b.name := by
          have hperm := (sortTrees_perm cs).map FSTree.name
          have : ((sortTrees cs).map FSTree.name).Nodup := hperm.nodup_iff.mpr hnames
          exact List.pairwise_map.mp this
        refine hnames2.imp ?_
        intro a b hab q hqa hqb
        have h1 := visitPaths_getElem p a.name a q hqa
        have h2 := visitPaths_getElem p b.name b q hqb
        rw [h1] at h2
        exact hab (Option.some.inj h2)

/-- All components of all visited paths are usable path components, given a
valid root path and a valid tree. -/
theorem visitPaths_valid (p : List String) (t : FSTree)
    (hp : ∀ x ∈ p, validName x = true) (hv : validTree t = true) :
    ∀ q ∈ visitPaths p t, ∀ x ∈ q, validName x = true := by
  induction p, t using visitPaths.induct with
  | case1 p n =>
    intro q hq
    rw [visitPaths_file] at hq
    simp at hq
    subst hq
    exact hp
  | case2 p n cs ih =>
    intro q hq
    rw [visitPaths_dir] at hq
    obtain ⟨hname, hchild⟩ := (validTree_dir_iff n cs).mp hv
    rcases List.mem_cons.mp hq with rfl | hq2
    · exact hp
    · obtain ⟨c, hc, hqc⟩ := List.mem_flatMap.mp hq2
      have hvc : validTree c = true := hchild c (mem_sortTrees.mp hc)
      refine ih ⟨c, hc⟩ ?_ hvc q hqc
      intro x hx
      rcases List.mem_append.mp hx with hx1 | hx2
      · exact hp x hx1
      · rw [List.mem_singleton.mp hx2]
        exact validTree_name c hvc

theorem joinPath_cons2 (s s2 : String) (t : List String) :
    joinPath (s :: s2 :: t) = s ++ "/" ++ joinPath (s2 :: t) := rfl

theorem intercalate_cons_cons {α : Type} (sep : List α) (a b : List α)
    (rest : List (List α)) :
    List.intercalate sep (a :: b :: rest)
      = a ++ sep ++ List.intercalate sep (b :: rest) := by
  simp [List.intercalate, List.intersperse, List.append_assoc]

theorem joinPath_data (l : List String) :
    (joinPath l).data = List.intercalate ['/'] (l.map String.data) := by
  induction l with
  | nil => simp [joinPath, List.intercalate]
  | cons s rest ih =>
    cases rest with
    | nil => simp [joinPath, List.intercalate, List.intersperse]
    | cons s2 t =>
      rw [joinPath_cons2]
      rw [String.data_append, String.data_append]
      rw [ih]
      conv_rhs => rw [List.map_cons, List.map_cons, intercalate_cons_cons, ← List.map_cons]

theorem joinPath_splitOn (l : List String) (hl : l ≠ [])
    (hv : ∀ x ∈ l, validName x = true) :
    (joinPath l).data.splitOn '/' = l.map String.data := by
  rw [joinPath_data]
  refine List.splitOn_intercalate (l.map String.data) '/' ?_ ?_
  · intro cl hcl
    obtain ⟨x, hx, rfl⟩ := List.mem_map.mp hcl
    have hx2 := hv x hx
    simp only [validName, Bool.and_eq_true, decide_eq_true_eq] at hx2
    exact hx2.2
  · simp [hl]

/-- Joining valid components is injective. -/
theorem joinPath_inj (l1 l2 : List String) (h1 : l1 ≠ []) (h2 : l2 ≠ [])
    (hv1 : ∀ x ∈ l1, validName x = true) (hv2 : ∀ x ∈ l2, validName x = true)
    (he : joinPath l1 = joinPath l2) : l1 = l2 := by
  have hd : (joinPath l1).data = (joinPath l2).data := by rw [he]
  have hmap : l1.map String.data = l2.map String.data := by
    rw [← joinPath_splitOn l1 h1 hv1, ← joinPath_splitOn l2 h2 hv2, hd]
  have hinj : Function.Injective String.data := fun a b hab => String.ext hab
  exact List.map_injective_iff.mpr hinj hmap

theorem string_append_cancel (x a b : String) (h : x ++ a = x ++ b) : a = b := by
  have hd : (x ++ a).data = (x ++ b).data := by rw [h]
  rw [String.data_append, String.data_append] at hd
  exact String.ext (List.append_cancel_left hd)

theorem render_false (cwd q : List String) : render false cwd q = absRender q := rfl

theorem render_true_below_cwd (cwd q : List String) (hpre : cwd <+: q)
    (hlt : cwd.length < q.length) :
    render true cwd q = "./" ++ joinPath (q.drop cwd.length) := by
  have hne : q.drop cwd.length ≠ [] := by
    intro h0
    have hlen := congrArg List.length h0
    rw [List.length_drop] at hlen
    simp at hlen
    omega
  simp only [render, List.isPrefixOf_iff_prefix, if_true]
  rw [if_pos hpre, if_neg hne]

/-- On the paths visited from one root, the printed path string determines
the path. -/
theorem render_inj_on_visit (cwd startParent : List String) (t : FSTree)
    (hv : validTree t = true) (hsp : ∀ x ∈ startParent, validName x = true) :
    ∀ q1 ∈ visitPaths (startParent ++ [t.name]) t,
    ∀ q2 ∈ visitPaths (startParent ++ [t.name]) t,
      render (decide (startParent = cwd)) cwd q1
        = render (decide (startParent = cwd)) cwd q2 → q1 = q2 := by
  intro q1 hq1 q2 hq2 he
  have hp : ∀ x ∈ startParent ++ [t.name], validName x = true := by
    intro x hx
    rcases List.mem_append.mp hx with hx1 | hx2
    · exact hsp x hx1
    · rw [List.mem_singleton.mp hx2]
      exact validTree_name t hv
  have hvalid := visitPaths_valid (startParent ++ [t.name]) t hp hv
  have hpre1 := visitPaths_extends (startParent ++ [t.name]) t q1 hq1
  have hpre2 := visitPaths_extends (startParent ++ [t.name]) t q2 hq2
  have hlen1 : startParent.length + 1 ≤ q1.length := by
    have := hpre1.length_le
    simpa using this
  have hlen2 : startParent.length + 1 ≤ q2.length := by
    have := hpre2.length_le
    simpa using this
  by_cases hrel : startParent = cwd
  · subst hrel
    rw [decide_eq_true rfl] at he
    have hc1 : startParent <+: q1 :=
      List.IsPrefix.trans (List.prefix_append startParent [t.name]) hpre1
    have hc2 : startParent <+: q2 :=
      List.IsPrefix.trans (List.prefix_append startParent [t.name]) hpre2
    rw [render_true_below_cwd startParent q1 hc1 (by omega),
      render_true_below_cwd startParent q2 hc2 (by omega)] at he
    have hj := string_append_cancel _ _ _ he
    have hrel_eq : q1.drop startParent.length = q2.drop startParent.length := by
      refine joinPath_inj _ _ ?_ ?_ ?_ ?_ hj
      · intro h0
        have hlen := congrArg List.length h0
        rw [List.length_drop] at hlen
        simp at hlen
        omega
      · intro h0
        have hlen := congrArg List.length h0
        rw [List.length_drop] at hlen
        simp at hlen
        omega
      · intro x hx
        exact hvalid q1 hq1 x (List.drop_subset _ _ hx)
      · intro x hx
        exact hvalid q2 hq2 x (List.drop_subset _ _ hx)
    have he1 := List.prefix_iff_eq_append.mp hc1
    have he2 := List.prefix_iff_eq_append.mp hc2
    rw [← he1, ← he2, hrel_eq]
  · rw [decide_eq_false hrel] at he
    rw [render_false, render_false, absRender, absRender] at he
    have hj := string_append_cancel _ _ _ he
    refine joinPath_inj _ _ ?_ ?_ ?_ ?_ hj
    · intro h0
      rw [h0] at hlen1
      simp at hlen1
    · intro h0
      rw [h0] at hlen2
      simp at hlen2
    · exact hvalid q1 hq1
    · exact hvalid q2 hq2

/-- Claim C9: `list_files` prints exactly the paths visited by a preorder
traversal with name-sorted children, each visited path exactly once (the
printed lines are duplicate-free); when the start path's immediate parent
equals the current working directory every line is `./<path relative to
the current working directory>`, and otherwise every line is the resolved
absolute path string. -/
theorem c9_list_files (cwd startParent : List String) (t : FSTree)
    (hwf : wfTree t = true) (hv : validTree t = true)
    (hsp : ∀ x ∈ startParent, validName x = true) :
    list_files cwd startParent t
      = (visitPaths (startParent ++ [t.name]) t).map
          (render (decide (startParent = cwd)) cwd)
    ∧ (visitPaths (startParent ++ [t.name]) t).Nodup
    ∧ (list_files cwd startParent t).Nodup
    ∧ (startParent = cwd →
        ∀ line ∈ list_files cwd startParent t,
          ∃ rel, rel ≠ [] ∧ line = "./" ++ joinPath rel
            ∧ cwd ++ rel ∈ visitPaths (startParent ++ [t.name]) t)
    ∧ (startParent ≠ cwd →
        list_files cwd startParent t
          = (visitPaths (startParent ++ [t.name]) t).map absRender)
    ∧ (∀ cs : List FSTree, (sortTrees cs).Perm cs
        ∧ ((sortTrees cs).map FSTree.name).Sorted (· ≤ ·)) := by
  have heq := list_files_eq cwd startParent t
  have hnodupP := visitPaths_nodup (startParent ++ [t.name]) t hwf
  refine ⟨heq, hnodupP, ?_, ?_, ?_,
    fun cs => ⟨sortTrees_perm cs, sortTrees_sorted_names cs⟩⟩
  · rw [heq]
    exact hnodupP.map_on (render_inj_on_visit cwd startParent t hv hsp)
  · intro hrel line hline
    rw [heq] at hline
    obtain ⟨q, hq, rfl⟩ := List.mem_map.mp hline
    have hpre := visitPaths_extends (startParent ++ [t.name]) t q hq
    have hlen : startParent.length + 1 ≤ q.length := by
      simpa using hpre.length_le
    subst hrel
    have hc : startParent <+: q :=
      (List.prefix_append startParent [t.name]).trans hpre
    rw [decide_eq_true rfl, render_true_below_cwd startParent q hc (by omega)]
    refine ⟨q.drop startParent.length, ?_, rfl, ?_⟩
    · intro h0
      have hl := congrArg List.length h0
      rw [List.length_drop] at hl
      simp at hl
      omega
    · rw [List.prefix_iff_eq_append.mp hc]
      exact hq
  · intro hrel
    rw [heq, decide_eq_false hrel]
    rw [show render false cwd = absRender from funext fun q => render_false cwd q]

theorem validTree_file (n : String) : validTree (.file n) = validName n := by
  simp [validTree]

/-- Witness for C9: a small tree listed in relative mode, with the sorted
preorder output and no duplicate lines. -/
theorem c9_witness :
    wfTree (.dir "app-flatpak" [.file "b", .dir "a" [.file "z"]]) = true
    ∧ validTree (.dir "app-flatpak" [.file "b", .dir "a" [.file "z"]]) = true
    ∧ list_files ["home"] ["home"]
        (.dir "app-flatpak" [.file "b", .dir "a" [.file "z"]])
        = ["./app-flatpak", "./app-flatpak/a", "./app-flatpak/a/z",
           "./app-flatpak/b"]
    ∧ (list_files ["home"] ["home"]
        (.dir "app-flatpak" [.file "b", .dir "a" [.file "z"]])).Nodup := by
  have hwf : wfTree (.dir "app-flatpak" [.file "b", .dir "a" [.file "z"]]) = true := by
    rw [wfTree_dir_iff]
    refine ⟨by decide, ?_⟩
    intro c hc
    rcases List.mem_cons.mp hc with rfl | hc2
    · exact wfTree_file "b"
    rcases List.mem_cons.mp hc2 with rfl | hc3
    · rw [wfTree_dir_iff]
      refine ⟨by decide, ?_⟩
      intro c2 hc4
      rcases List.mem_cons.mp hc4 with rfl | hc5
      · exact wfTree_file "z"
      · exact absurd hc5 (List.not_mem_nil c2)
    · exact absurd hc3 (List.not_mem_nil c)
  have hv : validTree (.dir "app-flatpak" [.file "b", .dir "a" [.file "z"]]) = true := by
    rw [validTree_dir_iff]
    refine ⟨by decide, ?_⟩
    intro c hc
    rcases List.mem_cons.mp hc with rfl | hc2
    · rw [validTree_file]
      decide
    rcases List.mem_cons.mp hc2 with rfl | hc3
    · rw [validTree_dir_iff]
      refine ⟨by decide, ?_⟩
      intro c2 hc4
      rcases List.mem_cons.mp hc4 with rfl | hc5
      · rw [validTree_file]
        decide
      · exact absurd hc5 (List.not_mem_nil c2)
    · exact absurd hc3 (List.not_mem_nil c)
  have h := c9_list_files ["home"] ["home"]
    (.dir "app-flatpak" [.file "b", .dir "a" [.file "z"]]) hwf hv
    (by intro x hx; rcases List.mem_cons.mp hx with rfl | hx2
        · decide
        · exact absurd hx2 (List.not_mem_nil x))
  have hs1 : sortTrees [FSTree.file "b", FSTree.dir "a" [FSTree.file "z"]]
      = [FSTree.dir "a" [FSTree.file "z"], FSTree.file "b"] := rfl
  have hs2 : sortTrees [FSTree.file "z"] = [FSTree.file "z"] := rfl
  have hvp : visitPaths ["home", "app-flatpak"]
      (.dir "app-flatpak" [.file "b", .dir "a" [.file "z"]])
      = [["home", "app-flatpak"], ["home", "app-flatpak", "a"],
         ["home", "app-flatpak", "a", "z"], ["home", "app-flatpak", "b"]] := by
    rw [visitPaths_dir, hs1]
    simp only [List.flatMap_cons, List.flatMap_nil]
    rw [visitPaths_dir, hs2]
    simp only [List.flatMap_cons, List.flatMap_nil, visitPaths_file]
    decide
  refine ⟨hwf, hv, ?_, h.2.2.1⟩
  rw [h.1]
  rw [show (["home"] : List String) ++ [FSTree.name
      (.dir "app-flatpak" [.file "b", .dir "a" [.file "z"]])]
    = ["home", "app-flatpak"] from rfl]
  rw [hvp]
  decide
